import Mathlib

/-!
Verification development for the sealed-bid auction cryptographic core.

Shallow embedding of:
* the RSA hidden-order groups, signed and unsigned
  (src/rsa/src/hog/rsa_hidden_order_group.rs,
   src/rsa/src/hog/unsigned_rsa_hidden_order_group.rs);
* the Lazy Timed Commitment layer (src/timed_commitments/src/lazy_tc.rs);
* the self-open parsing path of src/solidity/benches/bench_auction_house.rs.

Rust BigInt values are embedded as Lean `Int`; the Rust `%` on BigInt is
truncated division, embedded as `Int.tmod`.  Components of the repository
that are not part of the given sources (the bigint facade's extended gcd
and `nat_to_f`, the Pedersen commitment, BasicTC) are modelled from the
specification, as marked in their doc comments.
-/

/-- Error taxonomy of the HOG module (src/rsa/src/hog/mod.rs, `RsaHOGError`). -/
inductive RsaHOGError where
  | NotInvertible
  | NotCyclic
  deriving DecidableEq

/-- Result of a HOG operation: a value, a structured error of the module's
taxonomy, or a panic (a failed `assert!` in the Rust source). -/
inductive HogResult (α : Type) where
  | ok (a : α)
  | err (e : RsaHOGError)
  | panicked
  deriving DecidableEq

/-- A hidden-order-group element: its BigInt representative `n`
(field `n` of both Rust structs). -/
structure Hog where
  n : Int
  deriving DecidableEq

/-- Fuel-driven extended-Euclid loop tracking the Bezout coefficient of the
first argument: state (r0, r1) with coefficients (s0, s1); each step divides
and swaps.  Plain structural recursion so that the kernel can evaluate it. -/
def egcdLoop : Nat → Nat → Nat → Int → Int → Int
  | 0, _, _, s0, _ => s0
  | fuel + 1, r0, r1, s0, s1 =>
    if r1 = 0 then s0
    else egcdLoop fuel r1 (r0 % r1) s1 (s0 - (r0 / r1 : Nat) * s1)

/-- The Bezout coefficient of `a` against `m` delivered by the Euclidean
loop, reduced to the symmetric residue range `(-m/2, m/2]` so that one
addition of `m` normalizes a negative value. -/
def egcdCoeff (a m : Int) : Int :=
  if m < 2 * (egcdLoop m.natAbs a.natAbs m.natAbs a.sign 0 % m)
  then egcdLoop m.natAbs a.natAbs m.natAbs a.sign 0 % m - m
  else egcdLoop m.natAbs a.natAbs m.natAbs a.sign 0 % m

/-- Modelled from the spec: the BigInt facade's `extended_euclidean_gcd`
(crate rsa, bigint module, not under src/).  Per the spec it returns the
Bezout coefficients `((x, y), gcd)` on `(a, m)` with `a*x + m*y = gcd`,
where the gcd is non-negative and the coefficient `x` may be negative, the
caller normalizing it by adding `m` once. -/
def extended_euclidean_gcd (a m : Int) : (Int × Int) × Int :=
  ((egcdCoeff a m, ((Int.gcd a m : Int) - a * egcdCoeff a m) / m), (Int.gcd a m : Int))

/-- Canonical folding `min(a, M − a)`: the `min(a, ma)` pattern of
rsa_hidden_order_group.rs. -/
def fold (M a : Int) : Int := min a (M - a)

namespace SignedHog

/-- Embeds `RsaHiddenOrderGroup::from_nat` (rsa_hidden_order_group.rs lines
33–43): `assert!(a > 0)` — a panic when violated — then reduce mod `M` and
fold to `min(a, M − a)`. -/
def from_nat (M n : Int) : HogResult Hog :=
  if 0 < n then .ok ⟨fold M (Int.tmod n M)⟩ else .panicked

/-- Embeds `RsaHiddenOrderGroup::op` (lines 45–55): multiply, reduce mod
`M`, fold. -/
def op (M : Int) (a b : Hog) : Hog := ⟨fold M (Int.tmod (a.n * b.n) M)⟩

/-- Embeds `RsaHiddenOrderGroup::identity` (lines 57–62): the element 1,
stored unreduced. -/
def identity : Hog := ⟨1⟩

/-- Embeds `RsaHiddenOrderGroup::generator` (lines 64–69): returns the
parameter `G` unreduced — no folding is applied. -/
def generator (G : Int) : Hog := ⟨G⟩

/-- Embeds `RsaHiddenOrderGroup::power` (lines 71–79): `modpow(n, e, M)`
then fold.  Exponents used by the code are non-negative, embedded as `Nat`. -/
def power (M : Int) (a : Hog) (e : Nat) : Hog := ⟨fold M (Int.tmod (a.n ^ e) M)⟩

/-- Embeds the `Default` impl (lines 20–24): `from_nat(2)`. -/
def defaultElt (M : Int) : HogResult Hog := from_nat M 2

/-- Embeds `RsaHiddenOrderGroup::inverse` (lines 82–91): extended gcd
against `M`, `NotInvertible` when `|gcd| > 1`, a negative coefficient
normalized by adding `M`, then `from_nat`. -/
def inverse (M : Int) (a : Hog) : HogResult Hog :=
  if 1 < (extended_euclidean_gcd a.n M).2.natAbs then .err .NotInvertible
  else from_nat M
    (if (extended_euclidean_gcd a.n M).1.1 < 0
     then (extended_euclidean_gcd a.n M).1.1 + M
     else (extended_euclidean_gcd a.n M).1.1)

end SignedHog

namespace UnsignedHog

/-- Embeds `UnsignedRsaHiddenOrderGroup::from_nat`
(unsigned_rsa_hidden_order_group.rs lines 32–40): `assert!(a > 0)` then
reduce mod `M`; no folding. -/
def from_nat (M n : Int) : HogResult Hog :=
  if 0 < n then .ok ⟨Int.tmod n M⟩ else .panicked

/-- Embeds `UnsignedRsaHiddenOrderGroup::op` (lines 42–50). -/
def op (M : Int) (a b : Hog) : Hog := ⟨Int.tmod (a.n * b.n) M⟩

/-- Embeds `UnsignedRsaHiddenOrderGroup::identity` (lines 52–57). -/
def identity : Hog := ⟨1⟩

/-- Embeds `UnsignedRsaHiddenOrderGroup::generator` (lines 59–64): the
optional parameter `G`; `NotCyclic` when absent, otherwise `from_nat(G)`. -/
def generator (M : Int) (Gopt : Option Int) : HogResult Hog :=
  match Gopt with
  | some g => from_nat M g
  | none => .err .NotCyclic

/-- Embeds `UnsignedRsaHiddenOrderGroup::power` (lines 66–72). -/
def power (M : Int) (a : Hog) (e : Nat) : Hog := ⟨Int.tmod (a.n ^ e) M⟩

/-- Embeds `UnsignedRsaHiddenOrderGroup::inverse` (lines 75–84). -/
def inverse (M : Int) (a : Hog) : HogResult Hog :=
  if 1 < (extended_euclidean_gcd a.n M).2.natAbs then .err .NotInvertible
  else from_nat M
    (if (extended_euclidean_gcd a.n M).1.1 < 0
     then (extended_euclidean_gcd a.n M).1.1 + M
     else (extended_euclidean_gcd a.n M).1.1)

end UnsignedHog

/-- Error taxonomy surfaced by the timed-commitment layer's embedded
fallible conversions (spec section 7: ArgumentOutOfRange, e.g. a scalar
exceeding the field modulus). -/
inductive TcError where
  | ArgumentOutOfRange
  deriving DecidableEq

/-- Result of a LazyTC operation: a value, a propagated structured error, or
a panic (a `usize` underflow feeding `Vec::split_off`). -/
inductive TcRes (α : Type) where
  | ok (a : α)
  | err (e : TcError)
  | panicked
  deriving DecidableEq

/-- Little-endian fixed-width byte serialization, the semantics of
`into_repr().to_bytes_le()` on an arkworks prime-field element, which emits
exactly `len` bytes (lazy_tc.rs line 62). -/
def toBytesLE : Nat → Nat → List Nat
  | 0, _ => []
  | len + 1, x => x % 256 :: toBytesLE len (x / 256)

/-- Little-endian byte-string value, the semantics of
`BigInt::from_bytes_le(Sign::Plus, ..)` (lazy_tc.rs lines 84–87 and
119–122). -/
def fromBytesLE : List Nat → Nat
  | [] => 0
  | b :: bs => b + 256 * fromBytesLE bs

/-- Big-endian byte-string value, the semantics of
`BigInt::from_bytes_be(Sign::Plus, ..)` (bench_auction_house.rs line 877). -/
def fromBytesBE (l : List Nat) : Nat :=
  l.foldl (fun acc b => acc * 256 + b) 0

/-- Modelled from the spec: `nat_to_f` (crate rsa, bigint module, not under
src/) converts a non-negative BigInt into a scalar-field element; per the
spec's error taxonomy a scalar exceeding the field modulus is an
ArgumentOutOfRange error.  Scalars of the prime field F_q are embedded as
naturals below q. -/
def natToF (q x : Nat) : TcRes Nat :=
  if x < q then .ok x else .err .ArgumentOutOfRange

/-- Pedersen parameters: the two independent generators of the prime-order
group, embedded additively over Z_q (spec section 4.H). -/
structure PedersenParams where
  g : Nat
  h : Nat
  deriving DecidableEq

/-- Modelled from the spec (section 4.H): the message, a bounded byte
string, is mapped to a field scalar by canonical reduction. -/
def msgToScalar (q : Nat) (m : List Nat) : Nat := fromBytesLE m % q

/-- Modelled from the spec (section 4.H): the Pedersen commitment
`g^s · h^r` over a prime-order group, embedded additively over Z_q; the
randomness `r` is the opening. -/
def pedCommit (q : Nat) (pp : PedersenParams) (m : List Nat) (r : Nat) : Nat :=
  (msgToScalar q m * pp.g + r * pp.h) % q

/-- Modelled from the spec (section 4.H): Pedersen `ver_open` recomputes the
commitment and compares. -/
def pedVerOpen (q : Nat) (pp : PedersenParams) (c : Nat) (m : List Nat) (r : Nat) : Bool :=
  c == pedCommit q pp m r

/-- An authenticated ciphertext, idealized: AEAD_enc(k, ad, m) binds the
key, the associated data and the plaintext (spec sections 4.G and 6). -/
structure AeadCt where
  key : Nat
  ad : List Nat
  msg : List Nat
  deriving DecidableEq

/-- Modelled from the spec: AEAD encryption, idealized as recording
(k, ad, m). -/
def aeadEnc (k : Nat) (ad m : List Nat) : AeadCt := ⟨k, ad, m⟩

/-- Modelled from the spec: AEAD decryption; it succeeds exactly when key
and associated data match, otherwise authentication fails (spec section 6:
mismatched ad makes the open fail). -/
def aeadDec (k : Nat) (ad : List Nat) (c : AeadCt) : Option (List Nat) :=
  if c.key = k ∧ c.ad = ad then some c.msg else none

/-- Modelled from the spec (section 4.G): the symmetric key is a hash of the
serialized group element, idealized as an injective map of the canonical
representative. -/
def deriveKey (w : Hog) : Nat := w.n.natAbs

/-- Time parameters { x, y, t }, with y = x^(2^t) when honestly generated
(spec section 3). -/
structure TimeParams where
  x : Hog
  y : Hog
  t : Nat
  deriving DecidableEq

/-- A BasicTC commitment: puzzle base x and authenticated ciphertext ct
(spec sections 4.G and 6: tc_comm serializes as (x, ct), y being
recoverable as x^(2^t)). -/
structure TCComm where
  x : Hog
  ct : AeadCt
  deriving DecidableEq

/-- A BasicTC opening: either a self opening carrying the exponent alpha, or
a force opening carrying the proof of exponentiation for the solved puzzle
element w = x^(2^t) (spec sections 3 and 4.G; the PoE is idealized as sound
and complete, so it is embedded by the certified element itself). -/
inductive TCOpening where
  | self (alpha : Nat)
  | force (w : Hog)
  deriving DecidableEq

/-- Modelled from the spec (section 4.G Commit): u = x^alpha, w = y^alpha,
k = H(w), ct = AEAD_enc(k, ad, m); the commitment stores (u, ct) and the
opening carries alpha. -/
def basicCommit (M : Int) (tp : TimeParams) (alpha : Nat) (m ad : List Nat) :
    TCComm × TCOpening :=
  let u := SignedHog.power M tp.x alpha
  let w := SignedHog.power M tp.y alpha
  (⟨u, aeadEnc (deriveKey w) ad m⟩, .self alpha)

/-- Modelled from the spec (section 4.G Force-open): solve w = x^(2^t) by
sequential squaring, attach the PoE, derive the key, decrypt; on decryption
failure return (None, opening with PoE) — a soft failure, not an error. -/
def basicForceOpen (M : Int) (tp : TimeParams) (c : TCComm) (ad : List Nat) :
    Option (List Nat) × TCOpening :=
  let w := SignedHog.power M c.x (2 ^ tp.t)
  (aeadDec (deriveKey w) ad c.ct, .force w)

/-- Modelled from the spec (section 4.G Verify): dispatch on the opening
variant; self: recompute u and w from alpha; force: verify the PoE (here:
that w is the solved puzzle); either way re-run the AEAD verification of
(k, ad, ct, m). -/
def basicVerOpen (M : Int) (tp : TimeParams) (c : TCComm) (ad : List Nat)
    (m : Option (List Nat)) (o : TCOpening) : Bool :=
  match o with
  | .self alpha =>
      (c.x == SignedHog.power M tp.x alpha) &&
      (aeadDec (deriveKey (SignedHog.power M tp.y alpha)) ad c.ct == m)
  | .force w =>
      (w == SignedHog.power M c.x (2 ^ tp.t)) &&
      (aeadDec (deriveKey w) ad c.ct == m)

/-- A LazyTC commitment: the Pedersen commitment and the BasicTC commitment
(lazy_tc.rs lines 19–23). -/
structure LtcComm where
  pedComm : Nat
  tcComm : TCComm
  deriving DecidableEq

/-- A LazyTC opening: the BasicTC opening and the optional plaintext
tc_m = m ‖ serialize_le(r) (lazy_tc.rs lines 25–29). -/
structure LtcOpening where
  tcOpening : TCOpening
  tcM : Option (List Nat)
  deriving DecidableEq

/-- Embeds `LazyTC::commit` (lazy_tc.rs lines 53–71): Pedersen-commit to m
with randomness r, set tc_m = m ‖ serialize_le(r) at the scalar field's byte
width f_bytes, BasicTC-commit to tc_m, and return both commitments together
with the opening (tc_opening, Some tc_m). -/
def lazyCommit (M : Int) (q fBytes : Nat) (tp : TimeParams) (pp : PedersenParams)
    (alpha r : Nat) (m ad : List Nat) : LtcComm × LtcOpening :=
  let pc := pedCommit q pp m r
  let tcM := m ++ toBytesLE fBytes r
  let bc := basicCommit M tp alpha tcM ad
  (⟨pc, bc.1⟩, ⟨bc.2, some tcM⟩)

/-- Embeds `LazyTC::force_open` (lazy_tc.rs lines 73–98).  BasicTC
force-open runs first; when a plaintext is present,
`split_off(len − f_bytes)` splits off the trailing scalar bytes — a panic
(usize underflow, then index out of bounds) when the plaintext is shorter
than f_bytes — the trailing bytes are parsed little-endian into the scalar
field (an error from nat_to_f propagates through `?`), and the Pedersen
check decides between (Some m, opening) and (None, opening); when the
plaintext is absent the result is (None, opening), a success. -/
def lazyForceOpen (M : Int) (q fBytes : Nat) (tp : TimeParams) (pp : PedersenParams)
    (c : LtcComm) (ad : List Nat) : TcRes (Option (List Nat) × LtcOpening) :=
  let r := basicForceOpen M tp c.tcComm ad
  match r.1 with
  | some v =>
      if fBytes ≤ v.length then
        match natToF q (fromBytesLE (v.drop (v.length - fBytes))) with
        | .ok pedOpening =>
            if pedVerOpen q pp c.pedComm (v.take (v.length - fBytes)) pedOpening
            then .ok (some (v.take (v.length - fBytes)), ⟨r.2, some v⟩)
            else .ok (none, ⟨r.2, some v⟩)
        | .err e => .err e
        | .panicked => .panicked
      else .panicked
  | none => .ok (none, ⟨r.2, none⟩)

/-- Embeds `LazyTC::ver_open` (lazy_tc.rs lines 100–132): BasicTC
verification over opening.tc_m first; when opening.tc_m is present, the same
split (panicking when the plaintext is shorter than f_bytes) and
little-endian scalar parse (errors propagate), then the Pedersen check;
accept per the dispatch of lines 125–131.  When opening.tc_m is absent,
accept iff BasicTC verifies and m is None. -/
def lazyVerOpen (M : Int) (q fBytes : Nat) (tp : TimeParams) (pp : PedersenParams)
    (c : LtcComm) (ad : List Nat) (m : Option (List Nat)) (o : LtcOpening) :
    TcRes Bool :=
  let tcValid := basicVerOpen M tp c.tcComm ad o.tcM o.tcOpening
  match o.tcM with
  | some v =>
      if fBytes ≤ v.length then
        match natToF q (fromBytesLE (v.drop (v.length - fBytes))) with
        | .ok pedOpening =>
            let pedValid := pedVerOpen q pp c.pedComm (v.take (v.length - fBytes)) pedOpening
            match m with
            | some mv => .ok (tcValid && pedValid && (v.take (v.length - fBytes) == mv))
            | none => .ok (tcValid && !pedValid)
        | .err e => .err e
        | .panicked => .panicked
      else .panicked
  | none => .ok (tcValid && m.isNone)

/-- Embeds the self-open call site of bench_auction_house.rs lines 872–881:
take the opening's tc_m, split off the trailing f_bytes = 32 bytes, parse
them BIG-endian (`BigInt::from_bytes_be`), and convert to a scalar with
nat_to_f. -/
def benchSelfOpenParse (q : Nat) (tcm : List Nat) : TcRes Nat :=
  natToF q (fromBytesBE (tcm.drop (tcm.length - 32)))

/-- Congruence up to sign modulo M: the relation the canonical folding
identifies, `a ≡ ±b (mod M)`. -/
def Pm (M a b : Int) : Prop := a ≡ b [ZMOD M] ∨ a ≡ -b [ZMOD M]

/-- The 2048-bit test modulus of the repository (RSA-2048, used by the test
parameter structs of rsa_hidden_order_group.rs and lazy_tc.rs). -/
def Mtest : Int := 25195908475657893494027183240048398571429282126204032027777137836043662020707595556264018525880784406918290641249515082189298559149176184502808489120072844992687392807287776735971418347270261896375014971824691165077613379859095700097330459748808428401797429100642458691817195118746121515172654632282216869987549182422433637259085141865462043576798423387184774447920739934236584823824281198163815010674810451660377306056201619676256133844143603833904414952634432190114657544454178424020924616515723350778707749817125772467962926386356373289912154831438167899885040445364023527381951378636564391212010397122822120720357


/-! Helper lemmas: the plus-minus congruence and the canonical range. -/

theorem Pm.trans {M a b c : Int} (h1 : Pm M a b) (h2 : Pm M b c) : Pm M a c := by
  rcases h1 with h1 | h1 <;> rcases h2 with h2 | h2
  · exact .inl (h1.trans h2)
  · exact .inr (h1.trans h2)
  · exact .inr (h1.trans h2.neg)
  · exact .inl (h1.trans (by simpa using h2.neg))

theorem Pm.symm {M a b : Int} (h : Pm M a b) : Pm M b a := by
  rcases h with h | h
  · exact .inl h.symm
  · exact .inr (by simpa using h.symm.neg)

theorem Pm.pow {M a b : Int} (e : Nat) (h : Pm M a b) : Pm M (a ^ e) (b ^ e) := by
  rcases h with h | h
  · exact .inl (h.pow e)
  · have h2 := h.pow e
    rcases Nat.even_or_odd e with he | he
    · rw [he.neg_pow] at h2
      exact .inl h2
    · rw [he.neg_pow] at h2
      exact .inr h2

theorem Pm.mul_left (c : Int) {M a b : Int} (h : Pm M a b) : Pm M (c * a) (c * b) := by
  rcases h with h | h
  · exact .inl (h.mul_left c)
  · exact .inr (by simpa [mul_neg] using h.mul_left c)

theorem pm_fold (M a : Int) : Pm M (fold M a) a := by
  unfold fold
  rcases min_cases a (M - a) with ⟨h, _⟩ | ⟨h, _⟩
  · rw [h]
    exact .inl Int.ModEq.rfl
  · rw [h]
    right
    exact Int.ModEq.symm (Int.modEq_iff_dvd.mpr ⟨1, by ring⟩)

theorem pm_emod (M a : Int) : Pm M (a % M) a :=
  .inl (Int.emod_emod_of_dvd a dvd_rfl)

theorem canon_unique {M a b : Int} (hM : 2 ≤ M) (ha0 : 0 ≤ a) (ha : 2 * a ≤ M)
    (hb0 : 0 ≤ b) (hb : 2 * b ≤ M) (h : Pm M a b) : a = b := by
  rcases h with h | h
  · have hd : M ∣ b - a := Int.ModEq.dvd h
    have hz : b - a = 0 := Int.eq_zero_of_abs_lt_dvd hd (by rw [abs_lt]; omega)
    omega
  · have hd : M ∣ -b - a := Int.ModEq.dvd h
    have hd2 : M ∣ a + b := by
      have h2 := dvd_neg.mpr hd
      have he : -(-b - a) = a + b := by ring
      rwa [he] at h2
    obtain ⟨k, hk⟩ := hd2
    have hM0 : (0 : Int) < M := by omega
    have hk0 : 0 ≤ k := by
      by_contra hneg
      push_neg at hneg
      have : M * k ≤ M * (-1) := by
        apply mul_le_mul_of_nonneg_left _ hM0.le
        omega
      omega
    have hk1 : k ≤ 1 := by
      by_contra hgt
      push_neg at hgt
      have : M * 2 ≤ M * k := by
        apply mul_le_mul_of_nonneg_left _ hM0.le
        omega
      omega
    interval_cases k
    · omega
    · omega

theorem fold_nonneg {M a : Int} (h0 : 0 ≤ a) (h1 : a < M) : 0 ≤ fold M a := by
  unfold fold
  omega

theorem fold_le {M a : Int} (h0 : 0 ≤ a) (h1 : a < M) : 2 * fold M a ≤ M := by
  unfold fold
  omega

theorem emod_nonneg_of_pos {M a : Int} (hM : 0 < M) : 0 ≤ a % M :=
  Int.emod_nonneg a (by omega)

theorem emod_lt_of_pos' {M a : Int} (hM : 0 < M) : a % M < M :=
  Int.emod_lt_of_pos a hM

theorem from_nat_pos {M n : Int} (hM : 0 < M) (hn : 0 < n) :
    SignedHog.from_nat M n = .ok ⟨fold M (n % M)⟩ := by
  unfold SignedHog.from_nat
  rw [if_pos hn, Int.tmod_eq_emod hn.le hM.le]

theorem power_eq {M : Int} (hM : 0 < M) {x : Hog} (hx : 0 ≤ x.n) (e : Nat) :
    SignedHog.power M x e = ⟨fold M ((x.n ^ e) % M)⟩ := by
  unfold SignedHog.power
  rw [Int.tmod_eq_emod (pow_nonneg hx e) hM.le]

theorem power_canon {M : Int} (hM : 0 < M) {x : Hog} (hx : 0 ≤ x.n) (e : Nat) :
    0 ≤ (SignedHog.power M x e).n ∧ 2 * (SignedHog.power M x e).n ≤ M := by
  rw [power_eq hM hx e]
  exact ⟨fold_nonneg (emod_nonneg_of_pos hM) (emod_lt_of_pos' hM),
    fold_le (emod_nonneg_of_pos hM) (emod_lt_of_pos' hM)⟩

theorem power_power {M : Int} (hM : 2 ≤ M) {x : Hog} (hx : 0 ≤ x.n) (a b : Nat) :
    SignedHog.power M (SignedHog.power M x a) b = SignedHog.power M x (a * b) := by
  have hM0 : (0 : Int) < M := by omega
  have hr0 : 0 ≤ (x.n ^ a) % M := emod_nonneg_of_pos hM0
  have hrM : (x.n ^ a) % M < M := emod_lt_of_pos' hM0
  have hf0 : (0 : Int) ≤ fold M ((x.n ^ a) % M) := fold_nonneg hr0 hrM
  rw [power_eq hM0 hx a, power_eq hM0 (x := ⟨fold M ((x.n ^ a) % M)⟩) hf0 b,
    power_eq hM0 hx (a * b)]
  congr 1
  apply canon_unique hM
    (fold_nonneg (emod_nonneg_of_pos hM0) (emod_lt_of_pos' hM0))
    (fold_le (emod_nonneg_of_pos hM0) (emod_lt_of_pos' hM0))
    (fold_nonneg (emod_nonneg_of_pos hM0) (emod_lt_of_pos' hM0))
    (fold_le (emod_nonneg_of_pos hM0) (emod_lt_of_pos' hM0))
  have p1 : Pm M (fold M ((x.n ^ a) % M) ^ b) (x.n ^ (a * b)) := by
    have h1 : Pm M (fold M ((x.n ^ a) % M)) (x.n ^ a) :=
      (pm_fold M _).trans (pm_emod M _)
    have h2 := h1.pow b
    rwa [← pow_mul] at h2
  exact (pm_fold M _).trans ((pm_emod M _).trans
    (p1.trans ((pm_emod M _).symm.trans (pm_fold M _).symm)))

theorem gcd_modEq {m a b : Int} (h : a ≡ b [ZMOD m]) : Int.gcd a m = Int.gcd b m := by
  have hdvd : ∀ x y : Int, x ≡ y [ZMOD m] → (Int.gcd x m : Int) ∣ (Int.gcd y m : Int) := by
    intro x y hxy
    apply Int.dvd_gcd
    · have h1 : (Int.gcd x m : Int) ∣ x := Int.gcd_dvd_left
      have h2 : (Int.gcd x m : Int) ∣ y - x := dvd_trans Int.gcd_dvd_right hxy.dvd
      have := dvd_add h1 h2
      simpa using this
    · exact Int.gcd_dvd_right
  exact Nat.dvd_antisymm
    (Int.natCast_dvd_natCast.mp (hdvd a b h))
    (Int.natCast_dvd_natCast.mp (hdvd b a h.symm))

theorem gcd_neg_left {m a : Int} : Int.gcd (-a) m = Int.gcd a m := by
  unfold Int.gcd
  simp

theorem gcd_pm {m a b : Int} (h : Pm m a b) : Int.gcd a m = Int.gcd b m := by
  rcases h with h | h
  · exact gcd_modEq h
  · rw [gcd_modEq h, gcd_neg_left]

theorem sign_mul_self_eq (a : Int) : a.sign * a = (a.natAbs : Int) := by
  rcases a with n | n
  · rcases n with _ | n
    · rfl
    · simp [Int.sign]
      rw [abs_of_nonneg (by positivity)]
  · simp [Int.sign]
    rfl

theorem egcdLoop_spec (m aa : Int) (fuel : Nat) :
    ∀ (r0 r1 : Nat) (s0 s1 : Int), r1 ≤ fuel →
      s0 * aa ≡ (r0 : Int) [ZMOD m] → s1 * aa ≡ (r1 : Int) [ZMOD m] →
      egcdLoop fuel r0 r1 s0 s1 * aa ≡ (Nat.gcd r0 r1 : Int) [ZMOD m] := by
  induction fuel with
  | zero =>
    intro r0 r1 s0 s1 hf h0 h1
    have hz : r1 = 0 := by omega
    subst hz
    simpa [egcdLoop] using h0
  | succ fuel ih =>
    intro r0 r1 s0 s1 hf h0 h1
    by_cases h : r1 = 0
    · subst h
      simpa [egcdLoop] using h0
    · have hpos : 0 < r1 := Nat.pos_of_ne_zero h
      have hlt : r0 % r1 < r1 := Nat.mod_lt r0 hpos
      have e : ((r0 % r1 : Nat) : Int) =
          (r0 : Int) - ((r0 / r1 : Nat) : Int) * ((r1 : Nat) : Int) := by
        have e0 : r0 % r1 + r1 * (r0 / r1) = r0 := Nat.mod_add_div r0 r1
        have e1 : ((r0 % r1 : Nat) : Int) + (r1 : Int) * ((r0 / r1 : Nat) : Int)
            = (r0 : Int) := by exact_mod_cast congrArg (Nat.cast : Nat → Int) e0
        linarith [e1]
      have hmod : (s0 - ((r0 / r1 : Nat) : Int) * s1) * aa ≡ ((r0 % r1 : Nat) : Int) [ZMOD m] := by
        have h2 := Int.ModEq.sub h0 (Int.ModEq.mul_left ((r0 / r1 : Nat) : Int) h1)
        have h3 : (s0 - ((r0 / r1 : Nat) : Int) * s1) * aa
            = s0 * aa - ((r0 / r1 : Nat) : Int) * (s1 * aa) := by ring
        rw [h3, e]
        exact h2
      have hg : Nat.gcd r1 (r0 % r1) = Nat.gcd r0 r1 := by
        rw [Nat.gcd_comm r1 (r0 % r1), ← Nat.gcd_rec r1 r0, Nat.gcd_comm]
      have hrec := ih r1 (r0 % r1) s1 (s0 - ((r0 / r1 : Nat) : Int) * s1) (by omega) h1 hmod
      rw [hg] at hrec
      simpa [egcdLoop, if_neg h] using hrec

theorem egcdCoeff_modEq {a m : Int} (hm : 0 < m) :
    egcdCoeff a m * a ≡ (Int.gcd a m : Int) [ZMOD m] := by
  have h0 : a.sign * a ≡ ((a.natAbs : Nat) : Int) [ZMOD m] := by
    rw [sign_mul_self_eq]
  have h1 : (0 : Int) * a ≡ ((m.natAbs : Nat) : Int) [ZMOD m] := by
    rw [zero_mul]
    exact (Int.modEq_zero_iff_dvd.mpr (Int.dvd_natAbs.mpr dvd_rfl)).symm
  have hx := egcdLoop_spec m a m.natAbs a.natAbs m.natAbs a.sign 0 le_rfl h0 h1
  have hcoef : egcdCoeff a m ≡ egcdLoop m.natAbs a.natAbs m.natAbs a.sign 0 [ZMOD m] := by
    unfold egcdCoeff
    split
    · have hs : egcdLoop m.natAbs a.natAbs m.natAbs a.sign 0 % m - m
          ≡ egcdLoop m.natAbs a.natAbs m.natAbs a.sign 0 % m [ZMOD m] :=
        Int.modEq_iff_dvd.mpr ⟨1, by ring⟩
      exact hs.trans (Int.emod_emod_of_dvd _ dvd_rfl)
    · exact Int.emod_emod_of_dvd _ dvd_rfl
  exact (hcoef.mul_right a).trans hx

theorem egcdCoeff_range {a m : Int} (hm : 0 < m) :
    -m < 2 * egcdCoeff a m ∧ 2 * egcdCoeff a m ≤ m := by
  unfold egcdCoeff
  have h0 : 0 ≤ egcdLoop m.natAbs a.natAbs m.natAbs a.sign 0 % m :=
    emod_nonneg_of_pos hm
  have h1 : egcdLoop m.natAbs a.natAbs m.natAbs a.sign 0 % m < m :=
    emod_lt_of_pos' hm
  split <;> omega

theorem egcd_snd (a m : Int) : (extended_euclidean_gcd a m).2 = (Int.gcd a m : Int) := rfl

theorem egcd_fst (a m : Int) : (extended_euclidean_gcd a m).1.1 = egcdCoeff a m := rfl

theorem inverse_spec {M : Int} (hM : 2 ≤ M) {a : Hog} (ha : 0 ≤ a.n)
    (hg : Int.gcd a.n M = 1) :
    ∃ b, SignedHog.inverse M a = .ok b ∧ SignedHog.op M a b = SignedHog.identity := by
  have hM0 : (0 : Int) < M := by omega
  have hmod : egcdCoeff a.n M * a.n ≡ 1 [ZMOD M] := by
    have := egcdCoeff_modEq (a := a.n) hM0
    rwa [hg, Nat.cast_one] at this
  have hrange := egcdCoeff_range (a := a.n) (m := M) hM0
  have hx0 : egcdCoeff a.n M ≠ 0 := by
    intro h0
    rw [h0, zero_mul] at hmod
    have hdvd : M ∣ 1 := by simpa using hmod.symm.dvd
    have := Int.le_of_dvd one_pos hdvd
    omega
  have hinv_pos : 0 < (if egcdCoeff a.n M < 0 then egcdCoeff a.n M + M else egcdCoeff a.n M) := by
    split <;> omega
  have hinv_lt : (if egcdCoeff a.n M < 0 then egcdCoeff a.n M + M else egcdCoeff a.n M) < M := by
    split <;> omega
  set inv := if egcdCoeff a.n M < 0 then egcdCoeff a.n M + M else egcdCoeff a.n M with hinvdef
  have hinv_modEq : inv ≡ egcdCoeff a.n M [ZMOD M] := by
    rw [hinvdef]
    split
    · exact Int.modEq_iff_dvd.mpr ⟨-1, by ring⟩
    · exact Int.ModEq.rfl
  refine ⟨⟨fold M inv⟩, ?_, ?_⟩
  · unfold SignedHog.inverse
    rw [egcd_snd, egcd_fst, Int.natAbs_ofNat, hg, if_neg (by omega),
      from_nat_pos hM0 hinv_pos, Int.emod_eq_of_lt hinv_pos.le hinv_lt]
  · unfold SignedHog.op SignedHog.identity
    have hfold0 : 0 ≤ fold M inv := fold_nonneg hinv_pos.le hinv_lt
    congr 1
    rw [Int.tmod_eq_emod (by exact mul_nonneg ha hfold0) hM0.le]
    apply canon_unique hM
      (fold_nonneg (emod_nonneg_of_pos hM0) (emod_lt_of_pos' hM0))
      (fold_le (emod_nonneg_of_pos hM0) (emod_lt_of_pos' hM0))
      (by norm_num) (by omega)
    have h3 : a.n * inv ≡ 1 [ZMOD M] := by
      have h4 := hinv_modEq.mul_left a.n
      have h5 : egcdCoeff a.n M * a.n = a.n * egcdCoeff a.n M := by ring
      rw [h5] at hmod
      exact h4.trans hmod
    have pm1 : Pm M (a.n * fold M inv) 1 := by
      have h2 : Pm M (a.n * fold M inv) (a.n * inv) := (pm_fold M inv).mul_left a.n
      exact h2.trans (.inl h3)
    exact (pm_fold M _).trans ((pm_emod M _).trans pm1)

/-! Claim theorems. -/

/-- C6: inverse law in the signed HOG.  For every element built by from_nat
from n coprime to M, inverse succeeds (the Bezout coefficient, normalized by
adding M when negative, reduced to canonical form) and op(a, inverse(a)) is
the identity; and inverse returns NotInvertible exactly when the gcd of the
element's value with M exceeds 1. -/
theorem c6_inverse_law (M : Int) (hM : 2 ≤ M) :
    (∀ (n : Int) (a : Hog), SignedHog.from_nat M n = .ok a → Int.gcd n M = 1 →
      ∃ b, SignedHog.inverse M a = .ok b ∧ SignedHog.op M a b = SignedHog.identity) ∧
    (∀ a : Hog, SignedHog.inverse M a = .err .NotInvertible ↔ 1 < Int.gcd a.n M) := by
  have hM0 : (0 : Int) < M := by omega
  constructor
  · intro n a hok hg
    by_cases hn : 0 < n
    · rw [from_nat_pos hM0 hn] at hok
      injection hok with h
      subst h
      have ha : (0 : Int) ≤ fold M (n % M) :=
        fold_nonneg (emod_nonneg_of_pos hM0) (emod_lt_of_pos' hM0)
      have hgcd : Int.gcd (fold M (n % M)) M = 1 := by
        have := gcd_pm (m := M) ((pm_fold M (n % M)).trans (pm_emod M n))
        rw [this]
        exact hg
      exact inverse_spec hM ha hgcd
    · unfold SignedHog.from_nat at hok
      rw [if_neg hn] at hok
      exact HogResult.noConfusion hok
  · intro a
    unfold SignedHog.inverse
    rw [egcd_snd, Int.natAbs_ofNat]
    constructor
    · intro h
      by_cases hgt : 1 < Int.gcd a.n M
      · exact hgt
      · rw [if_neg hgt] at h
        unfold SignedHog.from_nat at h
        split at h <;> split at h <;> exact HogResult.noConfusion h
    · intro h
      rw [if_pos h]

/-- C6 witness: at M = 35 and n = 2 the inverse exists and multiplies to the
identity. -/
theorem c6_witness :
    ∃ b, SignedHog.inverse 35 ⟨2⟩ = .ok b ∧
      SignedHog.op 35 ⟨2⟩ b = SignedHog.identity :=
  (c6_inverse_law 35 (by norm_num)).1 2 ⟨2⟩ (by decide) (by decide)

/-- C7 counterexample: from_nat(0) fails the `assert!(a > 0)` and panics, in
both the signed and the unsigned variant; it does not return a structured
error (the module's error type has no ArgumentOutOfRange at all). -/
theorem c7_counterexample :
    SignedHog.from_nat Mtest 0 = .panicked ∧
    UnsignedHog.from_nat Mtest 0 = .panicked := by
  constructor <;> decide

/-- C7 amended: on any non-positive argument, from_nat of either variant
fails its assert (a panic), rather than returning a structured error of the
documented taxonomy. -/
theorem c7_from_nat_panics (M n : Int) (hn : n ≤ 0) :
    SignedHog.from_nat M n = .panicked ∧ UnsignedHog.from_nat M n = .panicked := by
  unfold SignedHog.from_nat UnsignedHog.from_nat
  rw [if_neg (by omega), if_neg (by omega)]
  exact ⟨rfl, rfl⟩

/-- C7 witness: instantiation at the test modulus and n = 0. -/
theorem c7_witness :
    SignedHog.from_nat Mtest 0 = .panicked ∧ UnsignedHog.from_nat Mtest 0 = .panicked :=
  c7_from_nat_panics Mtest 0 le_rfl

/-- C8: signed HOG op wraps and folds: for M above twice the product,
from_nat(M − 30) folds to 30, from_nat(40) stays 40, and their op is 1200 —
not M − 1200. -/
theorem c8_op_wraps (M : Int) (hM : 2400 < M) :
    ∃ a b : Hog, SignedHog.from_nat M (M - 30) = .ok a ∧
      SignedHog.from_nat M 40 = .ok b ∧
      (SignedHog.op M a b).n = 1200 ∧ (SignedHog.op M a b).n ≠ M - 1200 := by
  have hM0 : (0 : Int) < M := by omega
  refine ⟨⟨30⟩, ⟨40⟩, ?_, ?_, ?_, ?_⟩
  · rw [from_nat_pos hM0 (by omega)]
    have h1 : (M - 30) % M = M - 30 := Int.emod_eq_of_lt (by omega) (by omega)
    have h2 : fold M ((M - 30) % M) = 30 := by
      rw [h1]
      unfold fold
      omega
    rw [h2]
  · rw [from_nat_pos hM0 (by omega)]
    have h1 : (40 : Int) % M = 40 := Int.emod_eq_of_lt (by omega) (by omega)
    have h2 : fold M ((40 : Int) % M) = 40 := by
      rw [h1]
      unfold fold
      omega
    rw [h2]
  · show fold M (Int.tmod ((30 : Int) * 40) M) = 1200
    rw [Int.tmod_eq_emod (by norm_num) hM0.le]
    have h1 : ((30 : Int) * 40) % M = 1200 := by
      rw [show ((30 : Int) * 40) = 1200 by norm_num]
      exact Int.emod_eq_of_lt (by omega) (by omega)
    rw [h1]
    unfold fold
    omega
  · show fold M (Int.tmod ((30 : Int) * 40) M) ≠ M - 1200
    rw [Int.tmod_eq_emod (by norm_num) hM0.le]
    have h1 : ((30 : Int) * 40) % M = 1200 := by
      rw [show ((30 : Int) * 40) = 1200 by norm_num]
      exact Int.emod_eq_of_lt (by omega) (by omega)
    rw [h1]
    unfold fold
    omega

/-- C8 witness: instantiation at the repository's 2048-bit test modulus. -/
theorem c8_witness :
    ∃ a b : Hog, SignedHog.from_nat Mtest (Mtest - 30) = .ok a ∧
      SignedHog.from_nat Mtest 40 = .ok b ∧
      (SignedHog.op Mtest a b).n = 1200 ∧ (SignedHog.op Mtest a b).n ≠ Mtest - 1200 :=
  c8_op_wraps Mtest (by decide)

/-- C10: a positive multiple k·M of the modulus passes the positivity
assert in both variants and reduces to the element 0, which is not a unit:
inverse returns NotInvertible, and op with it yields the zero element
again. -/
theorem c10_zero_element (M k : Int) (hM : 2 ≤ M) (hk : 1 ≤ k) :
    SignedHog.from_nat M (k * M) = .ok ⟨0⟩ ∧
    UnsignedHog.from_nat M (k * M) = .ok ⟨0⟩ ∧
    SignedHog.inverse M ⟨0⟩ = .err .NotInvertible ∧
    UnsignedHog.inverse M ⟨0⟩ = .err .NotInvertible ∧
    (∀ b : Hog, SignedHog.op M ⟨0⟩ b = ⟨0⟩ ∧ UnsignedHog.op M ⟨0⟩ b = ⟨0⟩) := by
  have hM0 : (0 : Int) < M := by omega
  have hkM : (0 : Int) < k * M := mul_pos (by omega) hM0
  have hmod : (k * M) % M = 0 := Int.mul_emod_left k M
  have hgcd0 : 1 < Int.gcd (0 : Int) M := by
    rw [Int.gcd_zero_left]
    omega
  have hinv : ∀ f : Int → HogResult Hog,
      (if 1 < (extended_euclidean_gcd (0 : Int) M).2.natAbs then
        (.err .NotInvertible : HogResult Hog)
      else f (if (extended_euclidean_gcd (0 : Int) M).1.1 < 0
        then (extended_euclidean_gcd (0 : Int) M).1.1 + M
        else (extended_euclidean_gcd (0 : Int) M).1.1)) = .err .NotInvertible := by
    intro f
    rw [egcd_snd, Int.natAbs_ofNat, if_pos hgcd0]
  refine ⟨?_, ?_, ?_, ?_, ?_⟩
  · rw [from_nat_pos hM0 hkM, hmod]
    have : fold M 0 = 0 := by
      unfold fold
      omega
    rw [this]
  · unfold UnsignedHog.from_nat
    rw [if_pos hkM, Int.tmod_eq_emod hkM.le hM0.le, hmod]
  · unfold SignedHog.inverse
    exact hinv _
  · unfold UnsignedHog.inverse
    exact hinv _
  · intro b
    constructor
    · unfold SignedHog.op
      show (⟨fold M (Int.tmod ((0 : Int) * b.n) M)⟩ : Hog) = ⟨0⟩
      rw [zero_mul, Int.zero_tmod]
      have : fold M 0 = 0 := by
        unfold fold
        omega
      rw [this]
    · unfold UnsignedHog.op
      show (⟨Int.tmod ((0 : Int) * b.n) M⟩ : Hog) = ⟨0⟩
      rw [zero_mul, Int.zero_tmod]

/-- C10 witness: instantiation at M = 6, k = 2, with op partner 5. -/
theorem c10_witness :
    SignedHog.from_nat 6 (2 * 6) = .ok ⟨0⟩ ∧
    SignedHog.inverse 6 ⟨0⟩ = .err .NotInvertible ∧
    SignedHog.op 6 ⟨0⟩ ⟨5⟩ = ⟨0⟩ ∧ UnsignedHog.op 6 ⟨0⟩ ⟨5⟩ = ⟨0⟩ := by
  have h := c10_zero_element 6 2 (by norm_num) (by norm_num)
  exact ⟨h.1, h.2.2.1, h.2.2.2.2 ⟨5⟩⟩

/-- C4 counterexample: the generator is stored unreduced; with group
parameters G = 7 and M = 11 the claimed canonical bound 0 ≤ n ≤ M/2 fails
on the element returned by generator(). -/
theorem c4_counterexample : ¬ ((SignedHog.generator 7).n ≤ (11 : Int) / 2) := by
  decide

/-- C4 amended: every element returned by from_nat, op and power (on
canonically stored inputs), identity, and default satisfies 0 ≤ n ≤ M/2
(M ≥ 2); generator returns the parameter G unreduced and satisfies the
bound exactly when G already does; and from_nat identifies a with M − a. -/
theorem c4_canonical_form (M : Int) (hM : 2 ≤ M) :
    (∀ (n : Int) (a : Hog), SignedHog.from_nat M n = .ok a →
      0 ≤ a.n ∧ a.n ≤ M / 2) ∧
    (∀ a b : Hog, 0 ≤ a.n → 0 ≤ b.n →
      0 ≤ (SignedHog.op M a b).n ∧ (SignedHog.op M a b).n ≤ M / 2) ∧
    (∀ (a : Hog) (e : Nat), 0 ≤ a.n →
      0 ≤ (SignedHog.power M a e).n ∧ (SignedHog.power M a e).n ≤ M / 2) ∧
    (0 ≤ SignedHog.identity.n ∧ SignedHog.identity.n ≤ M / 2) ∧
    (∀ a : Hog, SignedHog.defaultElt M = .ok a → 0 ≤ a.n ∧ a.n ≤ M / 2) ∧
    (∀ G : Int, (0 ≤ (SignedHog.generator G).n ∧ (SignedHog.generator G).n ≤ M / 2)
      ↔ (0 ≤ G ∧ G ≤ M / 2)) ∧
    (∀ a : Int, 0 < a → a < M → ∀ x y : Hog,
      SignedHog.from_nat M a = .ok x → SignedHog.from_nat M (M - a) = .ok y →
      x.n = y.n) := by
  have hM0 : (0 : Int) < M := by omega
  have hfrom : ∀ (n : Int) (a : Hog), SignedHog.from_nat M n = .ok a →
      0 ≤ a.n ∧ a.n ≤ M / 2 := by
    intro n a hok
    by_cases hn : 0 < n
    · rw [from_nat_pos hM0 hn] at hok
      injection hok with h
      subst h
      have h1 := fold_nonneg (M := M) (a := n % M) (emod_nonneg_of_pos hM0)
        (emod_lt_of_pos' hM0)
      have h2 := fold_le (M := M) (a := n % M) (emod_nonneg_of_pos hM0)
        (emod_lt_of_pos' hM0)
      constructor
      · exact h1
      · show fold M (n % M) ≤ M / 2
        omega
    · unfold SignedHog.from_nat at hok
      rw [if_neg hn] at hok
      exact HogResult.noConfusion hok
  refine ⟨hfrom, ?_, ?_, ?_, ?_, ?_, ?_⟩
  · intro a b ha hb
    unfold SignedHog.op
    rw [Int.tmod_eq_emod (mul_nonneg ha hb) hM0.le]
    have h1 := fold_nonneg (M := M) (a := (a.n * b.n) % M) (emod_nonneg_of_pos hM0)
      (emod_lt_of_pos' hM0)
    have h2 := fold_le (M := M) (a := (a.n * b.n) % M) (emod_nonneg_of_pos hM0)
      (emod_lt_of_pos' hM0)
    refine ⟨h1, ?_⟩
    show fold M ((a.n * b.n) % M) ≤ M / 2
    omega
  · intro a e ha
    have h := power_canon hM0 ha e
    exact ⟨h.1, by omega⟩
  · constructor
    · norm_num [SignedHog.identity]
    · show (1 : Int) ≤ M / 2
      omega
  · intro a hok
    exact hfrom 2 a hok
  · intro G
    constructor
    · intro h
      exact h
    · intro h
      exact h
  · intro a ha0 haM x y hx hy
    rw [from_nat_pos hM0 ha0] at hx
    rw [from_nat_pos hM0 (by omega)] at hy
    injection hx with hx1
    injection hy with hy1
    subst hx1
    subst hy1
    have e1 : a % M = a := Int.emod_eq_of_lt (by omega) (by omega)
    have e2 : (M - a) % M = M - a := Int.emod_eq_of_lt (by omega) (by omega)
    show fold M (a % M) = fold M ((M - a) % M)
    rw [e1, e2]
    unfold fold
    omega

/-- C4 witness for the amended invariant: the power path at M = 11. -/
theorem c4_witness :
    0 ≤ (SignedHog.power 11 ⟨3⟩ 5).n ∧ (SignedHog.power 11 ⟨3⟩ 5).n ≤ 11 / 2 :=
  (c4_canonical_form 11 (by norm_num)).2.2.1 ⟨3⟩ 5 (by norm_num)

/-! Byte-serialization lemmas. -/

theorem toBytesLE_length (len x : Nat) : (toBytesLE len x).length = len := by
  induction len generalizing x with
  | zero => rfl
  | succ len ih =>
    unfold toBytesLE
    simp [ih]

theorem fromBytesLE_toBytesLE {len x : Nat} (h : x < 256 ^ len) :
    fromBytesLE (toBytesLE len x) = x := by
  induction len generalizing x with
  | zero =>
    unfold toBytesLE fromBytesLE
    simp at h
    omega
  | succ len ih =>
    unfold toBytesLE fromBytesLE
    have hdiv : x / 256 < 256 ^ len := by
      rw [Nat.div_lt_iff_lt_mul (by norm_num)]
      calc x < 256 ^ (len + 1) := h
        _ = 256 ^ len * 256 := by ring
    rw [ih hdiv]
    omega

theorem aead_roundtrip (k : Nat) (ad m : List Nat) :
    aeadDec k ad (aeadEnc k ad m) = some m := by
  unfold aeadDec aeadEnc
  simp

theorem take_drop_split (m tail : List Nat) :
    ((m ++ tail).take ((m ++ tail).length - tail.length) = m) ∧
    ((m ++ tail).drop ((m ++ tail).length - tail.length) = tail) := by
  have hl : (m ++ tail).length - tail.length = m.length := by
    rw [List.length_append]
    omega
  rw [hl]
  exact ⟨List.take_left m tail, List.drop_left m tail⟩

/-- C1: force-open agreement.  With honestly generated time parameters
(y = x^(2^t), canonical x), a Pedersen randomness below the field modulus q,
and the field's byte width covering q, force_open of a fresh commitment
deterministically recovers the committed message. -/
theorem c1_force_open_agreement (M : Int) (q fBytes : Nat) (tp : TimeParams)
    (pp : PedersenParams) (alpha r : Nat) (m ad : List Nat)
    (hM : 2 ≤ M) (hx : 0 ≤ tp.x.n)
    (hy : tp.y = SignedHog.power M tp.x (2 ^ tp.t))
    (hr : r < q) (hq : q ≤ 256 ^ fBytes) :
    ∃ o, lazyForceOpen M q fBytes tp pp
      (lazyCommit M q fBytes tp pp alpha r m ad).1 ad = .ok (some m, o) := by
  have hww : SignedHog.power M (SignedHog.power M tp.x alpha) (2 ^ tp.t)
      = SignedHog.power M tp.y alpha := by
    rw [hy, power_power hM hx, power_power hM hx, Nat.mul_comm]
  have hcomm : (lazyCommit M q fBytes tp pp alpha r m ad).1
      = ⟨pedCommit q pp m r,
         ⟨SignedHog.power M tp.x alpha,
          aeadEnc (deriveKey (SignedHog.power M tp.y alpha)) ad
            (m ++ toBytesLE fBytes r)⟩⟩ := rfl
  rw [hcomm]
  unfold lazyForceOpen basicForceOpen
  dsimp only
  rw [hww, aead_roundtrip]
  dsimp only
  have hlen : fBytes ≤ (m ++ toBytesLE fBytes r).length := by
    rw [List.length_append, toBytesLE_length]
    omega
  rw [if_pos hlen]
  have hsplit := take_drop_split m (toBytesLE fBytes r)
  rw [toBytesLE_length] at hsplit
  rw [hsplit.1, hsplit.2, fromBytesLE_toBytesLE (lt_of_lt_of_le hr hq)]
  unfold natToF
  rw [if_pos hr]
  dsimp only
  have hped : pedVerOpen q pp (pedCommit q pp m r) m r = true := by
    unfold pedVerOpen
    exact beq_self_eq_true _
  rw [hped]
  exact ⟨_, by rw [if_pos rfl]⟩

/-- C1 witness: a concrete honest instance, M = 35, x = 2, t = 2,
q = 251, fBytes = 2, r = 7, alpha = 3, m = two bytes. -/
theorem c1_witness :
    ∃ o, lazyForceOpen 35 251 2 ⟨⟨2⟩, SignedHog.power 35 ⟨2⟩ (2 ^ 2), 2⟩ ⟨5, 9⟩
      (lazyCommit 35 251 2 ⟨⟨2⟩, SignedHog.power 35 ⟨2⟩ (2 ^ 2), 2⟩ ⟨5, 9⟩ 3 7
        [21, 42] [1, 2, 3]).1 [1, 2, 3] = .ok (some [21, 42], o) :=
  c1_force_open_agreement 35 251 2 ⟨⟨2⟩, SignedHog.power 35 ⟨2⟩ (2 ^ 2), 2⟩ ⟨5, 9⟩ 3 7
    [21, 42] [1, 2, 3] (by norm_num) (by norm_num) rfl (by norm_num) (by norm_num)

/-- C3: force-open soft-failure dispatch.  When the decrypted plaintext is
present (and well-formed: long enough and with an in-field trailing scalar),
force_open splits it, parses the trailing scalar bytes little-endian, and
answers Some(prefix) or None by the Pedersen check; when decryption fails it
returns (None, opening) as a success, not an error. -/
theorem c3_force_open_dispatch (M : Int) (q fBytes : Nat) (tp : TimeParams)
    (pp : PedersenParams) (c : LtcComm) (ad : List Nat) :
    (∀ v : List Nat,
      aeadDec (deriveKey (SignedHog.power M c.tcComm.x (2 ^ tp.t))) ad c.tcComm.ct
        = some v →
      fBytes ≤ v.length →
      fromBytesLE (v.drop (v.length - fBytes)) < q →
      lazyForceOpen M q fBytes tp pp c ad =
        .ok ((if pedVerOpen q pp c.pedComm (v.take (v.length - fBytes))
                  (fromBytesLE (v.drop (v.length - fBytes)))
              then some (v.take (v.length - fBytes)) else none),
          ⟨.force (SignedHog.power M c.tcComm.x (2 ^ tp.t)), some v⟩)) ∧
    (aeadDec (deriveKey (SignedHog.power M c.tcComm.x (2 ^ tp.t))) ad c.tcComm.ct
        = none →
      lazyForceOpen M q fBytes tp pp c ad =
        .ok (none, ⟨.force (SignedHog.power M c.tcComm.x (2 ^ tp.t)), none⟩)) := by
  constructor
  · intro v hdec hlen hparse
    unfold lazyForceOpen basicForceOpen
    dsimp only
    rw [hdec]
    dsimp only
    rw [if_pos hlen]
    unfold natToF
    rw [if_pos hparse]
    dsimp only
    by_cases hped : pedVerOpen q pp c.pedComm (v.take (v.length - fBytes))
        (fromBytesLE (v.drop (v.length - fBytes))) = true
    · rw [if_pos hped, if_pos hped]
    · rw [if_neg hped, if_neg hped]
  · intro hdec
    unfold lazyForceOpen basicForceOpen
    dsimp only
    rw [hdec]

/-- C3 witness: a commitment whose ciphertext authenticates under a wrong
key decrypts to nothing; force_open still succeeds with (None, opening). -/
theorem c3_witness :
    lazyForceOpen 35 251 2 ⟨⟨2⟩, ⟨1⟩, 1⟩ ⟨5, 9⟩ ⟨3, ⟨⟨2⟩, ⟨999, [], [7]⟩⟩⟩ [] =
      .ok (none, ⟨.force (SignedHog.power 35 ⟨2⟩ (2 ^ 1)), none⟩) :=
  (c3_force_open_dispatch 35 251 2 ⟨⟨2⟩, ⟨1⟩, 1⟩ ⟨5, 9⟩ ⟨3, ⟨⟨2⟩, ⟨999, [], [7]⟩⟩⟩ []).2
    (by decide)

/-- C9: the tc_m parser is partial.  A present plaintext shorter than the
scalar byte width makes ver_open panic (usize underflow in
split_off(len − f_bytes)), and force_open panics the same way when the
decrypted plaintext is shorter than the scalar width. -/
theorem c9_short_plaintext_panics (M : Int) (q fBytes : Nat) (tp : TimeParams)
    (pp : PedersenParams) (c : LtcComm) (ad : List Nat) (m : Option (List Nat))
    (o : LtcOpening) (v : List Nat) :
    (o.tcM = some v → v.length < fBytes →
      lazyVerOpen M q fBytes tp pp c ad m o = .panicked) ∧
    (aeadDec (deriveKey (SignedHog.power M c.tcComm.x (2 ^ tp.t))) ad c.tcComm.ct
        = some v → v.length < fBytes →
      lazyForceOpen M q fBytes tp pp c ad = .panicked) := by
  constructor
  · intro hsome hshort
    unfold lazyVerOpen
    rw [hsome]
    dsimp only
    rw [if_neg (by omega)]
  · intro hdec hshort
    unfold lazyForceOpen basicForceOpen
    dsimp only
    rw [hdec]
    dsimp only
    rw [if_neg (by omega)]

/-- C9 witness: fBytes = 32 as for the configured curves, a 2-byte
plaintext: both paths panic. -/
theorem c9_witness :
    lazyVerOpen 35 251 32 ⟨⟨2⟩, ⟨1⟩, 1⟩ ⟨5, 9⟩ ⟨3, ⟨⟨2⟩, ⟨999, [], [7]⟩⟩⟩ []
      none ⟨.self 1, some [7, 8]⟩ = .panicked ∧
    lazyForceOpen 35 251 32 ⟨⟨2⟩, ⟨1⟩, 1⟩ ⟨5, 9⟩
      ⟨3, ⟨⟨2⟩, ⟨deriveKey (SignedHog.power 35 ⟨2⟩ (2 ^ 1)), [], [7, 8]⟩⟩⟩ [] = .panicked :=
  ⟨(c9_short_plaintext_panics 35 251 32 ⟨⟨2⟩, ⟨1⟩, 1⟩ ⟨5, 9⟩ ⟨3, ⟨⟨2⟩, ⟨999, [], [7]⟩⟩⟩ []
      none ⟨.self 1, some [7, 8]⟩ [7, 8]).1 rfl (by norm_num),
   (c9_short_plaintext_panics 35 251 32 ⟨⟨2⟩, ⟨1⟩, 1⟩ ⟨5, 9⟩
      ⟨3, ⟨⟨2⟩, ⟨deriveKey (SignedHog.power 35 ⟨2⟩ (2 ^ 1)), [], [7, 8]⟩⟩⟩ []
      none ⟨.self 1, some [7, 8]⟩ [7, 8]).2 (by decide) (by norm_num)⟩

/-- C2: ver_open dispatch.  With opening.tc_m = Some v (well-formed: long
enough, in-field trailing scalar), acceptance holds iff the BasicTC check
passes and either the claimed message equals the prefix of v with the
Pedersen check passing, or no message is claimed and the Pedersen check
fails; with opening.tc_m = None, acceptance is the BasicTC check conjoined
with the claimed message being None. -/
theorem c2_ver_open_dispatch (M : Int) (q fBytes : Nat) (tp : TimeParams)
    (pp : PedersenParams) (c : LtcComm) (ad : List Nat) (m : Option (List Nat))
    (o : LtcOpening) :
    (∀ v : List Nat, o.tcM = some v → fBytes ≤ v.length →
      fromBytesLE (v.drop (v.length - fBytes)) < q →
      (lazyVerOpen M q fBytes tp pp c ad m o = .ok true ↔
        (basicVerOpen M tp c.tcComm ad o.tcM o.tcOpening = true ∧
          ((∃ mv, m = some mv ∧
              pedVerOpen q pp c.pedComm (v.take (v.length - fBytes))
                (fromBytesLE (v.drop (v.length - fBytes))) = true ∧
              mv = v.take (v.length - fBytes)) ∨
            (m = none ∧
              pedVerOpen q pp c.pedComm (v.take (v.length - fBytes))
                (fromBytesLE (v.drop (v.length - fBytes))) = false))))) ∧
    (o.tcM = none →
      lazyVerOpen M q fBytes tp pp c ad m o =
        .ok (basicVerOpen M tp c.tcComm ad o.tcM o.tcOpening && m.isNone)) := by
  constructor
  · intro v hsome hlen hparse
    unfold lazyVerOpen
    rw [hsome]
    dsimp only
    rw [if_pos hlen]
    unfold natToF
    rw [if_pos hparse]
    dsimp only
    rcases m with _ | mv
    · constructor
      · intro h
        injection h with h
        rw [Bool.and_eq_true, Bool.not_eq_true'] at h
        exact ⟨h.1, .inr ⟨rfl, h.2⟩⟩
      · rintro ⟨htc, h | h⟩
        · obtain ⟨mv, hmv, _⟩ := h
          exact Option.noConfusion hmv
        · rw [htc, h.2]
          rfl
    · constructor
      · intro h
        injection h with h
        rw [Bool.and_eq_true, Bool.and_eq_true, beq_iff_eq] at h
        exact ⟨h.1.1, .inl ⟨mv, rfl, h.1.2, h.2.symm⟩⟩
      · rintro ⟨htc, h | h⟩
        · obtain ⟨mv2, hmv2, hped2, hpre2⟩ := h
          injection hmv2 with hmv2
          subst hmv2
          rw [htc, hped2]
          subst hpre2
          simp
        · exact Option.noConfusion h.1
  · intro hnone
    unfold lazyVerOpen
    rw [hnone]

/-- C2 witness: the None-tc_m branch at concrete inputs: a valid forced
opening with an absent plaintext verifies a None message. -/
theorem c2_witness :
    lazyVerOpen 35 251 32 ⟨⟨2⟩, ⟨1⟩, 1⟩ ⟨5, 9⟩ ⟨3, ⟨⟨2⟩, ⟨999, [], [7]⟩⟩⟩ []
      none ⟨.force (SignedHog.power 35 ⟨2⟩ (2 ^ 1)), none⟩ =
      .ok (basicVerOpen 35 ⟨⟨2⟩, ⟨1⟩, 1⟩ ⟨⟨2⟩, ⟨999, [], [7]⟩⟩ [] none
        (.force (SignedHog.power 35 ⟨2⟩ (2 ^ 1))) && Option.isNone (none : Option (List Nat))) :=
  (c2_ver_open_dispatch 35 251 32 ⟨⟨2⟩, ⟨1⟩, 1⟩ ⟨5, 9⟩ ⟨3, ⟨⟨2⟩, ⟨999, [], [7]⟩⟩⟩ []
    none ⟨.force (SignedHog.power 35 ⟨2⟩ (2 ^ 1)), none⟩).2 rfl

/-- C5: serialization endianness mismatch.  LazyTC::commit embeds the
Pedersen randomness little-endian in a fixed 32-byte width, while the bench
self-open call site parses the trailing 32 bytes big-endian; at r = 1 the
commit embeds serialize_le(1) but the downstream site recovers 2^248 — a
different scalar (q is the BN254 scalar-field modulus used by the bench). -/
theorem c5_endianness_mismatch :
    (lazyCommit 35
        21888242871839275222246405745257275088548364400416034343698204186575808495617
        32 ⟨⟨2⟩, ⟨1⟩, 1⟩ ⟨5, 9⟩ 3 1 [7] []).2.tcM = some ([7] ++ toBytesLE 32 1) ∧
    fromBytesLE (toBytesLE 32 1) = 1 ∧
    benchSelfOpenParse
        21888242871839275222246405745257275088548364400416034343698204186575808495617
        ([7] ++ toBytesLE 32 1) = .ok (2 ^ 248) ∧
    (2 ^ 248 : Nat) ≠ 1 := by
  refine ⟨rfl, by decide, by decide, by norm_num⟩
